import Mathlib

/-!
Verification development for the `jclem/router` request-routing library
(`src/toad.ts`).

The embedding models the router as explicit state passing:

* a `World` holds the shared route table, the shared stack table, and a heap
  of middleware lists (one cell per router instance), so the copy-versus-
  live-reference semantics of the source is expressible: route entries store
  a *value* (snapshot) of the middleware list, stack entries store a heap
  *index* (live reference);
* a `Toad` value is a router instance: its base path and the index of its
  middleware-list cell, mirroring the `#basePath` / `#stack` fields;
* middleware and handlers return a `Response` together with a `Trace`
  (a list of event labels), making "this function ran" observable in a pure
  setting; the chain runner threads continuations exactly as the source
  `next` closure does;
* the external path matcher (the `memoirist` dependency) is out of scope of
  the repository; following the spec it is modelled from its contract:
  `add(method, pattern, payload)` / `find(method, path)` with `:name`
  single-segment captures and a trailing `*` wildcard capture, most-specific
  match first and last registration winning ties.

All definitions are structurally recursive and executable, so concrete
instances evaluate by `rfl` / `decide`.
-/

/-- An HTTP request: the fields of the source `Request` that `Toad.handle`
reads (`method` and `url`). -/
structure Request where
  method : String
  url : String
deriving DecidableEq, Repr

/-- An HTTP response, reduced to the observable fields used by the source
(status code and serialized body). -/
structure Response where
  status : Nat
  body : String
deriving DecidableEq, Repr

/-- `Response.json(body, {status})` from the source, with the body already
serialized. -/
def Response.json (body : String) (status : Nat) : Response :=
  { status := status, body := body }

/-- Event log used to make execution order observable. -/
abbrev Trace := List String

/-- Request-scoped locals: a string-keyed mapping, `none` meaning the key is
absent (mirrors a JS object used as a map). -/
abbrev Locals := String → Option String

/-- The empty locals object `{}`. -/
def Locals.empty : Locals := fun _ => none

/-- JS object spread `{...a, ...b}`: a shallow merge where keys of `b` win on
collision. -/
def mergeLocals (a b : Locals) : Locals := fun k =>
  match b k with
  | some v => some v
  | none => a k

/-- Captured path parameters, as returned by the path matcher. -/
abbrev Params := List (String × String)

/-- The context passed to a middleware (source type `BeforeCtx`). -/
structure Ctx where
  request : Request
  matchedRoute : Option String
  locals : Locals

/-- The context passed to a request handler (source type `RequestCtx`). -/
structure HCtx where
  request : Request
  matchedRoute : String
  locals : Locals
  parameters : Params

/-- The result of a middleware or handler: its response plus the trace of
events it caused. -/
abbrev MwResult := Response × Trace

/-- A middleware unit: receives the context and the continuation `next`
(which takes the new locals), returns a response (source type
`Middleware`). -/
abbrev Mw := Ctx → (Locals → MwResult) → MwResult

/-- A request handler (source type `Handler`). -/
abbrev HandlerFn := HCtx → MwResult

/-- Payload stored in the route table by `#addRoute` (source type
`RouterCtx`): the literal registered path, a snapshot of the middleware
stack, and the handler. -/
structure RouteEntry where
  matchingRoute : String
  stack : List Mw
  handler : HandlerFn

/-- The shared mutable state of one mount tree (one `createToad` call and
its sub-routers): the route table (`#router`), the stack table
(`#stackRouter`, payloads are heap indices = live references), and the heap
of middleware lists (`#stack` arrays, one cell per router instance).
Tables are association lists of (method, pattern, payload). -/
structure World where
  routeTable : List (String × String × RouteEntry)
  stackTable : List (String × String × Nat)
  cells : List (List Mw)

/-- A router instance: its `#basePath` and the heap index of its `#stack`
array. -/
structure Toad where
  basePath : String
  stackId : Nat
deriving DecidableEq, Repr

/-! ### Path normalizer (`Toad.#normalizePath`)

The source is
`path = ("/" + path).replaceAll(/\/+/g, "/").replace(/\/*$/, "");
 return path === "" ? "/" : path;`
i.e. prepend a slash, collapse every run of slashes to one, strip all
trailing slashes, and map the empty result to `"/"`. -/

/-- Collapse runs of slashes to a single slash (`replaceAll(/\/+/g, "/")`).
The flag records whether the previously emitted character was a slash. -/
def collapseAux : Bool → List Char → List Char
  | _, [] => []
  | prevSlash, c :: rest =>
    if c = '/' then
      if prevSlash then collapseAux true rest
      else '/' :: collapseAux true rest
    else c :: collapseAux false rest

/-- Strip all trailing slashes (`replace(/\/*$/, "")`). -/
def stripT : List Char → List Char
  | [] => []
  | c :: rest =>
    match stripT rest with
    | [] => if c = '/' then [] else [c]
    | r => c :: r

/-- Character-level body of the normalizer: `stripT (collapse ("/" ++ s))`. -/
def normChars (cs : List Char) : List Char :=
  let p := stripT (collapseAux false ('/' :: cs))
  if p = [] then ['/'] else p

/-- The path normalizer `Toad.#normalizePath`. -/
def normalizePath (s : String) : String :=
  String.mk (normChars s.data)

/-! ### Auxiliary string functions (JS `split` / `join`) -/

/-- Helper for `splitSlash`: `cur` accumulates the current segment in
reverse. -/
def splitSlashAux (cur : List Char) : List Char → List String
  | [] => [String.mk cur.reverse]
  | c :: rest =>
    if c = '/' then String.mk cur.reverse :: splitSlashAux [] rest
    else splitSlashAux (c :: cur) rest

/-- JS `string.split("/")` (keeps empty segments). -/
def splitSlash (s : String) : List String :=
  splitSlashAux [] s.data

/-- JS `array.join("/")`. -/
def joinSlash : List String → String
  | [] => ""
  | [s] => s
  | s :: rest => s ++ "/" ++ joinSlash rest

/-! ### Path matcher, modelled from the spec contract

Modelled from the spec: the external Path Matcher (`memoirist`) is not part
of this repository; per the spec it supports `:name` single-segment captures
and a trailing `*` wildcard capture, the most specific match wins
(static > parameter > wildcard) and registration order breaks ties in favor
of the latest entry (duplicate registration: last write wins). -/

/-- Whether a pattern segment is a `:name` capture. -/
def isParamSeg (s : String) : Bool :=
  match s.data with
  | ':' :: _ => true
  | _ => false

/-- The name captured by a `:name` segment. -/
def paramName (s : String) : String :=
  String.mk s.data.tail

/-- Match a list of pattern segments against a list of path segments,
returning the captured parameters on success. -/
def segMatch : List String → List String → Option Params
  | [], segs =>
    match segs with
    | [] => some []
    | _ :: _ => none
  | p :: ps, segs =>
    if p = "*" && ps.isEmpty then some [("*", joinSlash segs)]
    else
      match segs with
      | [] => none
      | s :: ss =>
        if isParamSeg p then
          if s = "" then none
          else (segMatch ps ss).map (fun acc => (paramName p, s) :: acc)
        else if p = s then segMatch ps ss
        else none

/-- Match a whole pattern against a concrete path. -/
def patMatch (pattern path : String) : Option Params :=
  segMatch (splitSlash pattern) (splitSlash path)

/-- Specificity rank of a pattern: static (2) beats parameters (1) beats
wildcard (0). -/
def rankOf (pattern : String) : Nat :=
  if (splitSlash pattern).any (fun s => s = "*") then 0
  else if (splitSlash pattern).any (fun s => isParamSeg s) then 1
  else 2

/-- `find(method, path)` over an association-list table: scan left to right
keeping the best (highest-rank, latest) matching entry. -/
def findIn {α : Type} (method path : String) :
    List (String × String × α) → Option (Nat × α × Params) → Option (Nat × α × Params)
  | [], best => best
  | e :: rest, best =>
    let step :=
      if e.1 = method then
        match patMatch e.2.1 path with
        | some ps =>
          match best with
          | some b => if rankOf e.2.1 ≥ b.1 then some (rankOf e.2.1, e.2.2, ps) else best
          | none => some (rankOf e.2.1, e.2.2, ps)
        | none => best
      else best
    findIn method path rest step

/-! ### Router construction and registration -/

/-- The `Toad` constructor: record the base path and the middleware list
(a fresh heap cell), and register the two stack-table entries at
`basePath + "/*"` and at `basePath`, both pointing at that live cell. -/
def mkToad (basePath : String) (initStack : List Mw) (w : World) : Toad × World :=
  let sid := w.cells.length
  (⟨basePath, sid⟩,
    { w with
      cells := w.cells ++ [initStack]
      stackTable := w.stackTable ++ [("GET", basePath ++ "/*", sid), ("GET", basePath, sid)] })

/-- `createToad()`: a root router with base path `""`, an empty middleware
list, and fresh tables. -/
def createToad : Toad × World :=
  mkToad "" [] ⟨[], [], []⟩

/-- `Toad.use(md)`: push a middleware onto the router's live middleware
list. -/
def Toad.use (t : Toad) (m : Mw) (w : World) : World :=
  { w with cells := w.cells.set t.stackId (w.cells.getD t.stackId [] ++ [m]) }

/-- `Toad.#addRoute(method, path, fn)` with `path` the already-concatenated
`basePath + path`: normalize it, and insert a route entry keeping the
literal path as `matchingRoute` and a *copy* of the current middleware
list. -/
def Toad.addRoute (t : Toad) (method fullPath : String) (h : HandlerFn) (w : World) : World :=
  { w with
    routeTable := w.routeTable ++
      [(method, normalizePath fullPath,
        { matchingRoute := fullPath
          stack := w.cells.getD t.stackId []
          handler := h })] }

/-- `Toad.get(path, fn)`. The other verb helpers (`post`, `put`, ...) are
identical up to the method string. -/
def Toad.get (t : Toad) (p : String) (h : HandlerFn) (w : World) : World :=
  Toad.addRoute t "GET" (t.basePath ++ p) h w

/-- `Toad.post(path, fn)`. -/
def Toad.post (t : Toad) (p : String) (h : HandlerFn) (w : World) : World :=
  Toad.addRoute t "POST" (t.basePath ++ p) h w

/-- The sub-router construction inside `Toad.route`: a new `Toad` whose base
path is `basePath + path` and whose middleware list is a fresh cell seeded
with a *copy* of the parent's current list; the route and stack tables stay
shared (they live in the one `World`). -/
def Toad.mount (t : Toad) (p : String) (w : World) : Toad × World :=
  mkToad (t.basePath ++ p) (w.cells.getD t.stackId []) w

/-- `Toad.route(path, fn)`: build the sub-router and run the configure
callback on it. -/
def Toad.route (t : Toad) (p : String) (fn : Toad → World → World) (w : World) : World :=
  let s := Toad.mount t p w
  fn s.1 s.2

/-! ### Dispatch (`Toad.handle`) -/

/-- The body of the 404 response
`Response.json({ message: "Not found" }, { status: 404 })`. -/
def notFoundBody : String := "\x7b\"message\":\"Not found\"\x7d"

/-- The not-found response produced when a stack but no handler matched. -/
def notFound : Response := Response.json notFoundBody 404

/-- The path `handle` looks up:
`normalizePath(request.url.split("/").slice(3).join("/"))`. -/
def lookupPath (req : Request) : String :=
  normalizePath (joinSlash ((splitSlash req.url).drop 3))

/-- The route-table lookup `this.#router.find(request.method, path)`. -/
def routeHit (w : World) (req : Request) : Option (RouteEntry × Params) :=
  (findIn req.method (lookupPath req) w.routeTable none).map (fun x => x.2)

/-- The stack-table lookup `this.#stackRouter.find("GET", path)`; the source
passes the literal `"GET"` because the method is irrelevant for the
fallback. -/
def stackHit (w : World) (req : Request) : Option Nat :=
  (findIn "GET" (lookupPath req) w.stackTable none).map (fun x => x.2.1)

/-- `handler?.store.stack ?? stackHandler?.store.stack`: the middleware list
the chain will run, the route entry's snapshot if a route matched, else the
live list of the matching stack entry. -/
def resolvedStack (w : World) (req : Request) : Option (List Mw) :=
  match routeHit w req with
  | some x => some x.1.stack
  | none =>
    match stackHit w req with
    | some sid => some (w.cells.getD sid [])
    | none => none

/-- The initial context: the request, the matched pattern (or `null`), and
empty locals. -/
def initialCtx (w : World) (req : Request) : Ctx :=
  { request := req
    matchedRoute := (routeHit w req).map (fun x => x.1.matchingRoute)
    locals := Locals.empty }

/-- The terminal action when the cursor exhausts the stack and no route
matched: the 404 response, no handler involved. -/
def notFoundTerminal : Locals → MwResult := fun _ => (notFound, [])

/-- The terminal action of the chain: invoke the matched handler with the
accumulated locals and the extracted parameters, or produce the 404
response when only a stack entry resolved. -/
def terminalOf (w : World) (req : Request) : Locals → MwResult := fun out =>
  match routeHit w req with
  | none => notFoundTerminal out
  | some x => x.1.handler
      { request := req
        matchedRoute := x.1.matchingRoute
        locals := out
        parameters := x.2 }

/-- The chain runner: the source's `next` closure with its zero-based
cursor, written as structural recursion on the remaining stack. Middleware
`i` receives the base context rebuilt around the incoming locals and a
continuation running the suffix from `i+1`. -/
def runStack (ctx : Ctx) (terminal : Locals → MwResult) : List Mw → Locals → MwResult
  | [], out => terminal out
  | md :: rest, out => md { ctx with locals := out } (runStack ctx terminal rest)

/-- The dispatch pipeline of `Toad.handle`: resolve the stack (route table
first, stack table as fallback), fail loudly when neither matched, else run
the chain from `next({})`. -/
def dispatch (w : World) (req : Request) : Except String MwResult :=
  match resolvedStack w req with
  | none => Except.error "No stack handler found"
  | some stack => Except.ok (runStack (initialCtx w req) (terminalOf w req) stack Locals.empty)

/-- `Toad.handle` as a method: the instance's own fields are not consulted,
only the shared tables, so every router of a mount tree dispatches
identically. -/
def Toad.handle (_t : Toad) (w : World) (req : Request) : Except String MwResult :=
  dispatch w req

/-! ### Middleware factory (`createMiddleware`) -/

/-- `createMiddleware(before, after?)`: run `before`, shallow-merge its
returned locals into the context's locals (keys of `before`'s output win),
invoke the continuation with the merged locals, then run `after` (if
supplied) with the merged-locals context and the continuation's response,
discarding its return value; the middleware's response is exactly the
continuation's. Traces record the order: `before`'s events, then the
continuation's, then `after`'s. -/
def createMiddleware (before : Ctx → Locals × Trace)
    (after : Option (Ctx → Response → Trace)) : Mw :=
  fun ctx next =>
    let o := before ctx
    let merged := mergeLocals ctx.locals o.1
    let resp := next merged
    let atrace :=
      match after with
      | some a => a { ctx with locals := merged } resp.1
      | none => []
    (resp.1, o.2 ++ (resp.2 ++ atrace))

/-! ### Derived notions used by the statements -/

/-- Apply a sequence of `use` calls on one router, in order. -/
def applyUses (t : Toad) (ms : List Mw) (w : World) : World :=
  ms.foldl (fun wa m => Toad.use t m wa) w

/-- A middleware that always passes through: it invokes its continuation
with the locals computed by `f` from its context, and returns the
continuation's result unchanged. -/
def Transparent (m : Mw) (f : Ctx → Locals) : Prop :=
  ∀ ctx k, m ctx k = k (f ctx)

/-- A middleware that never invokes its continuation: it returns the fixed
response `r` (with trace `tr`) whatever the context and continuation. -/
def Blocking (m : Mw) (r : Response) (tr : Trace) : Prop :=
  ∀ ctx k, m ctx k = (r, tr)

/-- The `before` half of a factory-built middleware. -/
abbrev BeforeFn := Ctx → Locals × Trace

/-- The `after` half of a factory-built middleware. -/
abbrev AfterFn := Ctx → Response → Trace

/-- A stack built entirely from `createMiddleware`. -/
def mkStack (ps : List (BeforeFn × Option AfterFn)) : List Mw :=
  ps.map (fun p => createMiddleware p.1 p.2)

/-- The locals accumulated by running the `before` halves in order, each on
the context rebuilt around the locals so far, shallow-merging its output
(its keys winning). -/
def accLocals (ctx : Ctx) : List (BeforeFn × Option AfterFn) → Locals → Locals
  | [], out => out
  | p :: ps, out =>
    accLocals ctx ps (mergeLocals out (p.1 { ctx with locals := out }).1)

/-- Along the run of a factory-built stack, no `before` output ever binds
the key `k`. -/
def Untouched (ctx : Ctx) (k : String) : List (BeforeFn × Option AfterFn) → Locals → Prop
  | [], _ => True
  | p :: ps, out =>
    (p.1 { ctx with locals := out }).1 k = none ∧
      Untouched ctx k ps (mergeLocals out (p.1 { ctx with locals := out }).1)

/-- Worlds reachable through the public API: `createToad`, then any sequence
of `use`, verb registrations (`#addRoute`) and sub-router mounts on routers
of the tree. -/
inductive Built : World → Prop where
  | init : Built createToad.2
  | useStep (t : Toad) (m : Mw) (w : World) :
      Built w → t.stackId < w.cells.length → Built (Toad.use t m w)
  | addStep (t : Toad) (method fullPath : String) (h : HandlerFn) (w : World) :
      Built w → Built (Toad.addRoute t method fullPath h w)
  | mountStep (t : Toad) (p : String) (w : World) :
      Built w → Built (Toad.mount t p w).2

/-- The stack table contains a root catch-all entry `("GET", "/*", sid)`. -/
def StackCovered (w : World) : Prop :=
  ∃ sid, ("GET", "/*", sid) ∈ w.stackTable

/-- Non-empty slash-separated segments of a raw path string: the spellings
of a path that differ only in duplicated slashes, leading slashes or a
trailing slash are exactly the strings with the same non-empty segments.
`cur` accumulates the current segment in reverse. -/
def segsAux : List Char → List Char → List (List Char)
  | cur, [] => if cur = [] then [] else [cur.reverse]
  | cur, c :: rest =>
    if c = '/' then
      if cur = [] then segsAux [] rest else cur.reverse :: segsAux [] rest
    else segsAux (c :: cur) rest

/-- Render a segment list back to a canonical path: a slash before each
segment. -/
def flat : List (List Char) → List Char
  | [] => []
  | s :: rest => '/' :: (s ++ flat rest)

/-- The non-empty segments of a string. -/
def nonEmptySegs (s : String) : List String :=
  (segsAux [] s.data).map String.mk

/-- The raw path `handle` derives from a URL before normalization:
`url.split("/").slice(3).join("/")`. -/
def rawPath (u : String) : String :=
  joinSlash ((splitSlash u).drop 3)

/-- No two consecutive slashes anywhere in the character list. -/
def NoTwoSlashes (cs : List Char) : Prop :=
  List.Chain' (fun a b => a ≠ '/' ∨ b ≠ '/') cs

/-- A pattern with only literal segments: no `:name` capture, no `*`
wildcard. -/
def isStaticPattern (pat : String) : Bool :=
  (splitSlash pat).all (fun s => !(isParamSeg s) && !(s == "*"))

/-! ### Concrete values used by the witnesses -/

/-- A middleware that passes through unchanged. -/
def mwPass : Mw := fun ctx k => k ctx.locals

/-- A middleware that short-circuits with a fixed response. -/
def mwHalt (r : Response) (tr : Trace) : Mw := fun _ _ => (r, tr)

/-- A handler answering 200 with a fixed body. -/
def okHandler : HandlerFn := fun _ => (Response.json "ok" 200, ["handler"])

/-- A handler echoing the captured parameters in its trace. -/
def echoHandler : HandlerFn := fun ctx =>
  (Response.json "params" 200, ctx.parameters.map (fun pr => pr.1 ++ "=" ++ pr.2))

/-! ### Basic facts about the world operations -/

theorem use_routeTable (t : Toad) (m : Mw) (w : World) :
    (Toad.use t m w).routeTable = w.routeTable := rfl

theorem use_stackTable (t : Toad) (m : Mw) (w : World) :
    (Toad.use t m w).stackTable = w.stackTable := rfl

theorem use_cells_length (t : Toad) (m : Mw) (w : World) :
    (Toad.use t m w).cells.length = w.cells.length := by
  simp [Toad.use]

theorem getD_set_self (l : List (List Mw)) (i : Nat) (v : List Mw) (h : i < l.length) :
    (l.set i v).getD i [] = v := by
  simp [List.getD_eq_getElem?_getD, List.getElem?_set_self', List.getElem?_eq_getElem h]

theorem getD_set_ne (l : List (List Mw)) (i j : Nat) (v : List Mw) (h : i ≠ j) :
    (l.set i v).getD j [] = l.getD j [] := by
  simp [List.getD_eq_getElem?_getD, List.getElem?_set_ne h]

theorem use_cells_self (t : Toad) (m : Mw) (w : World) (h : t.stackId < w.cells.length) :
    (Toad.use t m w).cells.getD t.stackId [] = w.cells.getD t.stackId [] ++ [m] :=
  getD_set_self w.cells t.stackId (w.cells.getD t.stackId [] ++ [m]) h

theorem use_cells_ne (t : Toad) (m : Mw) (w : World) (j : Nat) (h : t.stackId ≠ j) :
    (Toad.use t m w).cells.getD j [] = w.cells.getD j [] :=
  getD_set_ne w.cells t.stackId j (w.cells.getD t.stackId [] ++ [m]) h

theorem applyUses_routeTable (t : Toad) (ms : List Mw) :
    ∀ w : World, (applyUses t ms w).routeTable = w.routeTable := by
  induction ms with
  | nil => intro w; rfl
  | cons m ms ih => intro w; simpa [applyUses, List.foldl_cons] using ih (Toad.use t m w)

theorem applyUses_stackTable (t : Toad) (ms : List Mw) :
    ∀ w : World, (applyUses t ms w).stackTable = w.stackTable := by
  induction ms with
  | nil => intro w; rfl
  | cons m ms ih => intro w; simpa [applyUses, List.foldl_cons] using ih (Toad.use t m w)

theorem applyUses_cells_length (t : Toad) (ms : List Mw) :
    ∀ w : World, (applyUses t ms w).cells.length = w.cells.length := by
  induction ms with
  | nil => intro w; rfl
  | cons m ms ih =>
    intro w
    have := ih (Toad.use t m w)
    simpa [applyUses, List.foldl_cons, use_cells_length] using this

theorem applyUses_cells_self (t : Toad) (ms : List Mw) :
    ∀ w : World, t.stackId < w.cells.length →
      (applyUses t ms w).cells.getD t.stackId [] = w.cells.getD t.stackId [] ++ ms := by
  induction ms with
  | nil => intro w _; simp [applyUses]
  | cons m ms ih =>
    intro w h
    have h2 : t.stackId < (Toad.use t m w).cells.length := by
      simpa [use_cells_length] using h
    have := ih (Toad.use t m w) h2
    calc (applyUses t (m :: ms) w).cells.getD t.stackId []
        = (applyUses t ms (Toad.use t m w)).cells.getD t.stackId [] := by
          simp [applyUses, List.foldl_cons]
      _ = (Toad.use t m w).cells.getD t.stackId [] ++ ms := this
      _ = w.cells.getD t.stackId [] ++ m :: ms := by
          rw [use_cells_self t m w h]; simp

theorem applyUses_cells_ne (t : Toad) (ms : List Mw) :
    ∀ (w : World) (j : Nat), t.stackId ≠ j →
      (applyUses t ms w).cells.getD j [] = w.cells.getD j [] := by
  induction ms with
  | nil => intro w j _; rfl
  | cons m ms ih =>
    intro w j h
    have := ih (Toad.use t m w) j h
    calc (applyUses t (m :: ms) w).cells.getD j []
        = (applyUses t ms (Toad.use t m w)).cells.getD j [] := by
          simp [applyUses, List.foldl_cons]
      _ = (Toad.use t m w).cells.getD j [] := this
      _ = w.cells.getD j [] := use_cells_ne t m w j h

theorem routeHit_use (t : Toad) (m : Mw) (w : World) (req : Request) :
    routeHit (Toad.use t m w) req = routeHit w req := rfl

theorem stackHit_use (t : Toad) (m : Mw) (w : World) (req : Request) :
    stackHit (Toad.use t m w) req = stackHit w req := rfl

theorem routeHit_applyUses (t : Toad) (ms : List Mw) (w : World) (req : Request) :
    routeHit (applyUses t ms w) req = routeHit w req := by
  simp [routeHit, applyUses_routeTable]

theorem stackHit_applyUses (t : Toad) (ms : List Mw) (w : World) (req : Request) :
    stackHit (applyUses t ms w) req = stackHit w req := by
  simp [stackHit, applyUses_stackTable]

/-! ### Facts about the matcher model -/

theorem rankOf_le_two (pat : String) : rankOf pat ≤ 2 := by
  unfold rankOf
  split
  · omega
  · split <;> omega

theorem findIn_append {α : Type} (method path : String) (t1 t2 : List (String × String × α))
    (b : Option (Nat × α × Params)) :
    findIn method path (t1 ++ t2) b = findIn method path t2 (findIn method path t1 b) := by
  induction t1 generalizing b with
  | nil => rfl
  | cons e rest ih => simp only [List.cons_append, findIn]; exact ih _

theorem findIn_rank_le {α : Type} (method path : String) :
    ∀ (tbl : List (String × String × α)) (b : Option (Nat × α × Params)),
      (∀ x, b = some x → x.1 ≤ 2) →
      ∀ x, findIn method path tbl b = some x → x.1 ≤ 2 := by
  intro tbl
  induction tbl with
  | nil => intro b hb x hx; exact hb x hx
  | cons e rest ih =>
    intro b hb x hx
    refine ih _ ?_ x hx
    intro y hy
    simp only at hy
    split at hy
    · split at hy
      · split at hy
        · split at hy
          · cases hy; exact rankOf_le_two _
          · exact hb y hy
        · cases hy; exact rankOf_le_two _
      · exact hb y hy
    · exact hb y hy

theorem findIn_isSome_mono {α : Type} (method path : String) :
    ∀ (tbl : List (String × String × α)) (b : Option (Nat × α × Params)),
      b.isSome → (findIn method path tbl b).isSome := by
  intro tbl
  induction tbl with
  | nil => intro b hb; exact hb
  | cons e rest ih =>
    intro b hb
    refine ih _ ?_
    split
    · split
      · split
        · split <;> simp
        · simp
      · exact hb
    · exact hb

theorem findIn_isSome_of_mem {α : Type} (method path pat : String) (a : α) :
    ∀ (tbl : List (String × String × α)) (b : Option (Nat × α × Params)),
      (method, pat, a) ∈ tbl → (patMatch pat path).isSome →
      (findIn method path tbl b).isSome := by
  intro tbl
  induction tbl with
  | nil => intro b hmem _; cases hmem
  | cons e rest ih =>
    intro b hmem hmatch
    rcases List.mem_cons.mp hmem with he | hrest
    · subst he
      refine findIn_isSome_mono method path rest _ ?_
      obtain ⟨ps, hps⟩ := Option.isSome_iff_exists.mp hmatch
      cases b with
      | none => simp [hps]
      | some x =>
        simp only [hps]
        repeat' split
        all_goals simp
    · exact ih _ hrest hmatch

theorem isStaticPattern_forall (pat : String) (h : isStaticPattern pat = true) :
    ∀ s ∈ splitSlash pat, isParamSeg s = false ∧ s ≠ "*" := by
  intro s hs
  have hx := List.all_eq_true.mp h s hs
  simp only [Bool.and_eq_true, Bool.not_eq_true'] at hx
  refine ⟨hx.1, ?_⟩
  have := hx.2
  simpa using this

theorem segMatch_self_static :
    ∀ l : List String, (∀ s ∈ l, isParamSeg s = false ∧ s ≠ "*") → segMatch l l = some [] := by
  intro l
  induction l with
  | nil => intro _; rfl
  | cons p ps ih =>
    intro h
    have hp := h p (List.mem_cons_self ..)
    have hrest := fun s hs => h s (List.mem_cons_of_mem p hs)
    simp [segMatch, hp.1, hp.2, ih hrest]

theorem patMatch_self_static (pat : String) (h : isStaticPattern pat = true) :
    patMatch pat pat = some [] :=
  segMatch_self_static _ (isStaticPattern_forall pat h)

theorem rankOf_static (pat : String) (h : isStaticPattern pat = true) : rankOf pat = 2 := by
  have hall := isStaticPattern_forall pat h
  have h1 : ((splitSlash pat).any fun s => decide (s = "*")) = false := by
    rw [List.any_eq_false]
    intro s hs
    simpa using (hall s hs).2
  have h2 : ((splitSlash pat).any fun s => isParamSeg s) = false := by
    rw [List.any_eq_false]
    intro s hs
    simp [(hall s hs).1]
  simp [rankOf, h1, h2]

theorem findIn_last_static {α : Type} (method pnorm : String) (a : α)
    (tbl : List (String × String × α)) (h : isStaticPattern pnorm = true) :
    findIn method pnorm (tbl ++ [(method, pnorm, a)]) none = some (2, a, []) := by
  rw [findIn_append]
  have hble : ∀ x, findIn method pnorm tbl none = some x → x.1 ≤ 2 :=
    findIn_rank_le method pnorm tbl none (by intro x hx; cases hx)
  cases hbv : findIn method pnorm tbl none with
  | none =>
    simp [findIn, patMatch_self_static pnorm h, rankOf_static pnorm h]
  | some x =>
    have hx := hble x hbv
    have hge : rankOf pnorm ≥ x.1 := by rw [rankOf_static pnorm h]; exact hx
    simp [findIn, patMatch_self_static pnorm h, rankOf_static pnorm h, hge]
    intro hlt
    omega

/-! ### Dispatch and chain-runner helpers -/

theorem dispatch_eq_run (w : World) (req : Request) (st : List Mw)
    (hres : resolvedStack w req = some st) :
    dispatch w req =
      Except.ok (runStack (initialCtx w req) (terminalOf w req) st Locals.empty) := by
  unfold dispatch
  rw [hres]

theorem runStack_cons (ctx : Ctx) (term : Locals → MwResult) (m : Mw) (rest : List Mw)
    (out : Locals) :
    runStack ctx term (m :: rest) out =
      m { ctx with locals := out } (runStack ctx term rest) := rfl

theorem runStack_transparent_prefix (ctx : Ctx) (term : Locals → MwResult) :
    ∀ (pre rest : List Mw), (∀ x ∈ pre, ∃ f, Transparent x f) →
      ∀ out, ∃ out2,
        runStack ctx term (pre ++ rest) out = runStack ctx term rest out2 := by
  intro pre
  induction pre with
  | nil => intro rest _ out; exact ⟨out, rfl⟩
  | cons p ps ih =>
    intro rest hpre out
    obtain ⟨f, hf⟩ := hpre p (List.mem_cons_self ..)
    obtain ⟨out2, h2⟩ :=
      ih rest (fun x hx => hpre x (List.mem_cons_of_mem p hx)) (f { ctx with locals := out })
    refine ⟨out2, ?_⟩
    rw [List.cons_append, runStack_cons, hf]
    exact h2

/-! ### The normalizer characterized by non-empty segments -/

theorem stripT_getLast : ∀ l : List Char,
    stripT l = [] ∨ (stripT l).getLast? ≠ some '/' := by
  intro l
  induction l with
  | nil => exact Or.inl rfl
  | cons c rest ih =>
    cases hst : stripT rest with
    | nil =>
      by_cases hc : c = '/'
      · left; simp [stripT, hst, hc]
      · right; simp [stripT, hst, hc]
    | cons r rs =>
      right
      have hstep : stripT (c :: rest) = c :: r :: rs := by
        simp [stripT, hst]
      rw [hstep, List.getLast?_cons_cons]
      rcases ih with h | h
      · rw [hst] at h; cases h
      · rwa [hst] at h

theorem stripT_eq_self : ∀ l : List Char, l.getLast? ≠ some '/' → stripT l = l := by
  intro l
  induction l with
  | nil => intro _; rfl
  | cons c rest ih =>
    intro h
    cases rest with
    | nil =>
      have hc : c ≠ '/' := by simpa using h
      simp [stripT, hc]
    | cons d ds =>
      have h2 : (d :: ds).getLast? ≠ some '/' := by
        rwa [List.getLast?_cons_cons] at h
      have h3 := ih h2
      have hstep : stripT (c :: d :: ds) =
          match stripT (d :: ds) with
          | [] => if c = '/' then [] else [c]
          | r => c :: r := rfl
      rw [hstep, h3]

theorem stripT_append : ∀ xs ys : List Char,
    stripT (xs ++ ys) = if stripT ys = [] then stripT xs else xs ++ stripT ys := by
  intro xs ys
  induction xs with
  | nil =>
    by_cases h : stripT ys = [] <;> simp [h, stripT]
  | cons c xs ih =>
    have hx : stripT (c :: (xs ++ ys)) =
        match stripT (xs ++ ys) with
        | [] => if c = '/' then [] else [c]
        | r => c :: r := rfl
    by_cases h : stripT ys = []
    · rw [List.cons_append, hx, ih, if_pos h, if_pos h]
      rfl
    · rw [List.cons_append, hx, ih, if_neg h, if_neg h]
      cases hs : stripT ys with
      | nil => exact absurd hs h
      | cons a as =>
        cases xs with
        | nil => simp
        | cons b bs => simp

theorem flat_eq_nil (ss : List (List Char)) : flat ss = [] ↔ ss = [] := by
  cases ss <;> simp [flat]

theorem getLast_slash_revcons (cur : List Char) (hne : cur ≠ [])
    (hnos : ∀ c ∈ cur, c ≠ '/') : ('/' :: cur.reverse).getLast? ≠ some '/' := by
  cases cur with
  | nil => exact absurd rfl hne
  | cons a as =>
    have hsplit : ('/' :: (a :: as).reverse) = ('/' :: as.reverse) ++ [a] := by simp
    rw [hsplit, List.getLast?_concat]
    intro h
    have ha := hnos a (List.mem_cons_self ..)
    simp only [Option.some.injEq] at h
    exact ha h

theorem normSpecAux : ∀ cs : List Char,
    (stripT ('/' :: collapseAux true cs) = flat (segsAux [] cs)) ∧
    (∀ cur : List Char, cur ≠ [] → (∀ c ∈ cur, c ≠ '/') →
      stripT ('/' :: (cur.reverse ++ collapseAux false cs)) = flat (segsAux cur cs)) := by
  intro cs
  induction cs with
  | nil =>
    constructor
    · rfl
    · intro cur hne hnos
      have h0 : collapseAux false ([] : List Char) = [] := rfl
      rw [h0, List.append_nil, stripT_eq_self _ (getLast_slash_revcons cur hne hnos)]
      simp [segsAux, hne, flat]
  | cons c rest ih =>
    constructor
    · by_cases hc : c = '/'
      · subst hc
        have h1 : collapseAux true ('/' :: rest) = collapseAux true rest := by
          simp [collapseAux]
        have h2 : segsAux ([] : List Char) ('/' :: rest) = segsAux [] rest := by
          simp [segsAux]
        rw [h1, h2]
        exact ih.1
      · have h1 : collapseAux true (c :: rest) = c :: collapseAux false rest := by
          simp [collapseAux, hc]
        have h2 : segsAux ([] : List Char) (c :: rest) = segsAux [c] rest := by
          simp [segsAux, hc]
        rw [h1, h2]
        have hcur := ih.2 [c] (by simp) (by simpa using hc)
        simpa using hcur
    · intro cur hne hnos
      by_cases hc : c = '/'
      · subst hc
        have h1 : collapseAux false ('/' :: rest) = '/' :: collapseAux true rest := by
          simp [collapseAux]
        have h2 : segsAux cur ('/' :: rest) = cur.reverse :: segsAux [] rest := by
          simp [segsAux, hne]
        rw [h1, h2]
        have hsplit : ('/' :: (cur.reverse ++ '/' :: collapseAux true rest))
            = ('/' :: cur.reverse) ++ ('/' :: collapseAux true rest) := by simp
        rw [hsplit, stripT_append, ih.1]
        by_cases hflat : flat (segsAux [] rest) = []
        · rw [if_pos hflat]
          have hsegs : segsAux ([] : List Char) rest = [] := (flat_eq_nil _).mp hflat
          rw [hsegs, stripT_eq_self _ (getLast_slash_revcons cur hne hnos)]
          simp [flat]
        · rw [if_neg hflat]
          simp [flat]
      · have h1 : collapseAux false (c :: rest) = c :: collapseAux false rest := by
          simp [collapseAux, hc]
        have h2 : segsAux cur (c :: rest) = segsAux (c :: cur) rest := by
          simp [segsAux, hc]
        rw [h1, h2]
        have hall : ∀ x ∈ c :: cur, x ≠ '/' := by
          intro x hx
          rcases List.mem_cons.mp hx with h | h
          · subst h; exact hc
          · exact hnos x h
        have hrec := ih.2 (c :: cur) (by simp) hall
        have h3 : ('/' :: (cur.reverse ++ c :: collapseAux false rest))
            = ('/' :: ((c :: cur).reverse ++ collapseAux false rest)) := by simp
        rw [h3]
        exact hrec

theorem normChars_eq (cs : List Char) :
    normChars cs = if segsAux [] cs = [] then ['/'] else flat (segsAux [] cs) := by
  have h1 : collapseAux false ('/' :: cs) = '/' :: collapseAux true cs := by
    simp [collapseAux]
  unfold normChars
  rw [h1, (normSpecAux cs).1]
  by_cases h : segsAux ([] : List Char) cs = []
  · simp [h, flat]
  · have hf : flat (segsAux [] cs) ≠ [] := fun hx => h ((flat_eq_nil _).mp hx)
    rw [if_neg h, if_neg hf]

theorem segsAux_good : ∀ (cs cur : List Char), (∀ c ∈ cur, c ≠ '/') →
    ∀ s ∈ segsAux cur cs, s ≠ [] ∧ ∀ c ∈ s, c ≠ '/' := by
  intro cs
  induction cs with
  | nil =>
    intro cur hcur s hs
    by_cases h : cur = []
    · simp [segsAux, h] at hs
    · simp only [segsAux, if_neg h] at hs
      rw [List.mem_singleton] at hs
      subst hs
      refine ⟨by simpa using h, fun c hc => hcur c (List.mem_reverse.mp hc)⟩
  | cons c rest ih =>
    intro cur hcur s hs
    by_cases hc : c = '/'
    · subst hc
      by_cases h : cur = []
      · simp only [segsAux, if_pos rfl, if_pos h] at hs
        exact ih [] (by simp) s hs
      · simp only [segsAux, if_pos rfl, if_neg h] at hs
        rcases List.mem_cons.mp hs with hseg | hseg
        · subst hseg
          exact ⟨by simpa using h, fun x hx => hcur x (List.mem_reverse.mp hx)⟩
        · exact ih [] (by simp) s hseg
    · simp only [segsAux, if_neg hc] at hs
      refine ih (c :: cur) ?_ s hs
      intro x hx
      rcases List.mem_cons.mp hx with hx | hx
      · subst hx; exact hc
      · exact hcur x hx

theorem normalizePath_congr (s1 s2 : String) (h : nonEmptySegs s1 = nonEmptySegs s2) :
    normalizePath s1 = normalizePath s2 := by
  have hinj : Function.Injective String.mk := fun a b hab => by injection hab
  have hsegs : segsAux [] s1.data = segsAux [] s2.data :=
    List.map_injective_iff.mpr hinj h
  unfold normalizePath
  rw [normChars_eq, normChars_eq, hsegs]

theorem normalizePath_head (s : String) : (normalizePath s).data.head? = some '/' := by
  show (normChars s.data).head? = some '/'
  rw [normChars_eq]
  by_cases h : segsAux ([] : List Char) s.data = []
  · simp [h]
  · rw [if_neg h]
    cases hs : segsAux ([] : List Char) s.data with
    | nil => exact absurd hs h
    | cons a as => simp [flat]

theorem normalizePath_trailing (s : String) :
    normalizePath s = "/" ∨ (normalizePath s).data.getLast? ≠ some '/' := by
  by_cases h : stripT (collapseAux false ('/' :: s.data)) = []
  · left
    show String.mk (normChars s.data) = "/"
    simp [normChars, h]
  · right
    show (normChars s.data).getLast? ≠ some '/'
    have hval : normChars s.data = stripT (collapseAux false ('/' :: s.data)) := by
      simp [normChars, h]
    rw [hval]
    rcases stripT_getLast (collapseAux false ('/' :: s.data)) with h2 | h2
    · exact absurd h2 h
    · exact h2

theorem chain_of_all_ne : ∀ l : List Char, (∀ c ∈ l, c ≠ '/') →
    List.Chain' (fun a b => a ≠ '/' ∨ b ≠ '/') l := by
  intro l
  induction l with
  | nil => intro _; simp
  | cons a l ih =>
    intro h
    cases l with
    | nil => simp
    | cons b t =>
      rw [List.chain'_cons]
      exact ⟨Or.inl (h a (List.mem_cons_self ..)),
        ih (fun c hc => h c (List.mem_cons_of_mem a hc))⟩

theorem chain_slash_cons (s : List Char) (h : ∀ c ∈ s, c ≠ '/') :
    List.Chain' (fun a b => a ≠ '/' ∨ b ≠ '/') ('/' :: s) := by
  cases s with
  | nil => simp
  | cons b t =>
    rw [List.chain'_cons]
    exact ⟨Or.inr (h b (List.mem_cons_self ..)), chain_of_all_ne _ h⟩

theorem mem_of_getLast_opt : ∀ (l : List Char) (x : Char), l.getLast? = some x → x ∈ l := by
  intro l
  induction l with
  | nil => intro x h; cases h
  | cons a t ih =>
    intro x h
    cases t with
    | nil =>
      simp only [List.getLast?_singleton, Option.some.injEq] at h
      subst h
      exact List.mem_singleton.mpr rfl
    | cons b u =>
      rw [List.getLast?_cons_cons] at h
      exact List.mem_cons_of_mem a (ih x h)

theorem flat_noTwoSlashes : ∀ ss : List (List Char),
    (∀ s ∈ ss, s ≠ [] ∧ ∀ c ∈ s, c ≠ '/') → NoTwoSlashes (flat ss) := by
  intro ss
  induction ss with
  | nil => intro _; simp [flat, NoTwoSlashes]
  | cons s rest ih =>
    intro h
    obtain ⟨hne, hnos⟩ := h s (List.mem_cons_self ..)
    have hrest := ih (fun x hx => h x (List.mem_cons_of_mem s hx))
    have hsplit : flat (s :: rest) = ('/' :: s) ++ flat rest := by simp [flat]
    rw [NoTwoSlashes, hsplit, List.chain'_append]
    refine ⟨chain_slash_cons s hnos, hrest, ?_⟩
    intro x hx y _
    left
    cases s with
    | nil => exact absurd rfl hne
    | cons a t =>
      rw [List.getLast?_cons_cons] at hx
      exact hnos x (mem_of_getLast_opt (a :: t) x hx)

theorem normalizePath_noTwoSlashes (s : String) : NoTwoSlashes (normalizePath s).data := by
  show NoTwoSlashes (normChars s.data)
  rw [normChars_eq]
  by_cases h : segsAux ([] : List Char) s.data = []
  · rw [if_pos h]; simp [NoTwoSlashes]
  · rw [if_neg h]
    exact flat_noTwoSlashes _ (segsAux_good s.data [] (by simp))

/-! ### Membership of characters under splitting and normalization -/

theorem mem_flat_of_mem (c : Char) : ∀ (ss : List (List Char)) (s : List Char),
    s ∈ ss → c ∈ s → c ∈ flat ss := by
  intro ss
  induction ss with
  | nil => intro s hs _; cases hs
  | cons a as ih =>
    intro s hs hc
    rcases List.mem_cons.mp hs with h | h
    · subst h
      simp only [flat, List.mem_cons, List.mem_append]
      exact Or.inr (Or.inl hc)
    · simp only [flat, List.mem_cons, List.mem_append]
      exact Or.inr (Or.inr (ih s h hc))

theorem mem_segsAux_of_mem (c : Char) (hc : c ≠ '/') : ∀ (cs cur : List Char),
    (c ∈ cs ∨ c ∈ cur) → ∃ s ∈ segsAux cur cs, c ∈ s := by
  intro cs
  induction cs with
  | nil =>
    intro cur h
    rcases h with h | h
    · cases h
    · have hne : cur ≠ [] := by rintro rfl; cases h
      refine ⟨cur.reverse, ?_, List.mem_reverse.mpr h⟩
      simp [segsAux, hne]
  | cons d rest ih =>
    intro cur h
    by_cases hd : d = '/'
    · subst hd
      have hr : c ∈ rest ∨ c ∈ cur := by
        rcases h with h | h
        · rcases List.mem_cons.mp h with h | h
          · exact absurd h.symm (Ne.symm hc)
          · exact Or.inl h
        · exact Or.inr h
      by_cases hcur : cur = []
      · subst hcur
        rcases hr with h2 | h2
        · obtain ⟨s, hs, hcs⟩ := ih [] (Or.inl h2)
          exact ⟨s, by simpa [segsAux] using hs, hcs⟩
        · cases h2
      · rcases hr with h2 | h2
        · obtain ⟨s, hs, hcs⟩ := ih [] (Or.inl h2)
          refine ⟨s, ?_, hcs⟩
          simp only [segsAux, if_pos rfl, if_neg hcur]
          exact List.mem_cons_of_mem _ hs
        · refine ⟨cur.reverse, ?_, List.mem_reverse.mpr h2⟩
          simp only [segsAux, if_pos rfl, if_neg hcur]
          exact List.mem_cons_self ..
    · have hr : c ∈ rest ∨ c ∈ d :: cur := by
        rcases h with h | h
        · rcases List.mem_cons.mp h with h | h
          · exact Or.inr (h ▸ List.mem_cons_self ..)
          · exact Or.inl h
        · exact Or.inr (List.mem_cons_of_mem d h)
      obtain ⟨s, hs, hcs⟩ := ih (d :: cur) hr
      refine ⟨s, ?_, hcs⟩
      simpa [segsAux, hd] using hs

theorem normChars_mem (c : Char) (hc : c ≠ '/') (cs : List Char) (h : c ∈ cs) :
    c ∈ normChars cs := by
  rw [normChars_eq]
  obtain ⟨s, hs, hcs⟩ := mem_segsAux_of_mem c hc cs [] (Or.inl h)
  have hne : segsAux ([] : List Char) cs ≠ [] := by
    rintro hnil
    rw [hnil] at hs
    cases hs
  rw [if_neg hne]
  exact mem_flat_of_mem c _ s hs hcs

theorem mem_data_of_mem_splitSlashAux (c : Char) : ∀ (cs cur : List Char) (s : String),
    s ∈ splitSlashAux cur cs → c ∈ s.data → c ∈ cs ∨ c ∈ cur := by
  intro cs
  induction cs with
  | nil =>
    intro cur s hs hc
    simp only [splitSlashAux, List.mem_singleton] at hs
    subst hs
    exact Or.inr (List.mem_reverse.mp hc)
  | cons d rest ih =>
    intro cur s hs hc
    by_cases hd : d = '/'
    · subst hd
      simp only [splitSlashAux, if_pos rfl] at hs
      rcases List.mem_cons.mp hs with h | h
      · subst h
        exact Or.inr (List.mem_reverse.mp hc)
      · rcases ih [] s h hc with h2 | h2
        · exact Or.inl (List.mem_cons_of_mem _ h2)
        · cases h2
    · simp only [splitSlashAux, if_neg hd] at hs
      rcases ih (d :: cur) s hs hc with h2 | h2
      · exact Or.inl (List.mem_cons_of_mem _ h2)
      · rcases List.mem_cons.mp h2 with h3 | h3
        · exact Or.inl (h3 ▸ List.mem_cons_self ..)
        · exact Or.inr h3

theorem mem_splitSlashAux_of_mem (c : Char) : ∀ (cs cur : List Char),
    (c ∈ cs ∨ c ∈ cur) → c ≠ '/' → ∃ s ∈ splitSlashAux cur cs, c ∈ s.data := by
  intro cs
  induction cs with
  | nil =>
    intro cur h _
    refine ⟨String.mk cur.reverse, List.mem_singleton.mpr rfl, ?_⟩
    rcases h with h | h
    · cases h
    · exact List.mem_reverse.mpr h
  | cons d rest ih =>
    intro cur h hc
    by_cases hd : d = '/'
    · subst hd
      have hr : c ∈ rest ∨ c ∈ cur := by
        rcases h with h | h
        · rcases List.mem_cons.mp h with h | h
          · exact absurd h.symm (Ne.symm hc)
          · exact Or.inl h
        · exact Or.inr h
      rcases hr with h2 | h2
      · obtain ⟨s, hs, hcs⟩ := ih [] (Or.inl h2) hc
        refine ⟨s, ?_, hcs⟩
        simp only [splitSlashAux, if_pos rfl]
        exact List.mem_cons_of_mem _ hs
      · refine ⟨String.mk cur.reverse, ?_, List.mem_reverse.mpr h2⟩
        simp only [splitSlashAux, if_pos rfl]
        exact List.mem_cons_self ..
    · have hr : c ∈ rest ∨ c ∈ d :: cur := by
        rcases h with h | h
        · rcases List.mem_cons.mp h with h | h
          · exact Or.inr (h ▸ List.mem_cons_self ..)
          · exact Or.inl h
        · exact Or.inr (List.mem_cons_of_mem d h)
      obtain ⟨s, hs, hcs⟩ := ih (d :: cur) hr hc
      refine ⟨s, ?_, hcs⟩
      simpa [splitSlashAux, hd] using hs

/-! ### Static patterns only match their own spelling -/

theorem segMatch_static_eq : ∀ (l segs : List String) (ps : Params),
    (∀ s ∈ l, isParamSeg s = false ∧ s ≠ "*") → segMatch l segs = some ps → segs = l := by
  intro l
  induction l with
  | nil =>
    intro segs ps _ h
    cases segs with
    | nil => rfl
    | cons a as => simp [segMatch] at h
  | cons p l ih =>
    intro segs ps hall h
    have hp := hall p (List.mem_cons_self ..)
    have hrest := fun s hs => hall s (List.mem_cons_of_mem p hs)
    have hcond : (decide (p = "*") && l.isEmpty) = false := by
      simp [hp.2]
    simp only [segMatch] at h
    rw [hcond] at h
    simp only [Bool.false_eq_true, if_false] at h
    cases segs with
    | nil => cases h
    | cons s ss =>
      rw [hp.1] at h
      simp only [Bool.false_eq_true, if_false] at h
      by_cases hps : p = s
      · rw [if_pos hps] at h
        rw [ih ss ps hrest h, hps]
      · rw [if_neg hps] at h
        cases h

theorem patMatch_static_query (pat path : String) (hstat : isStaticPattern pat = true)
    (hq : '?' ∈ path.data) (hnq : '?' ∉ pat.data) : patMatch pat path = none := by
  cases hm : patMatch pat path with
  | none => rfl
  | some ps =>
    exfalso
    have heq : splitSlash path = splitSlash pat :=
      segMatch_static_eq _ _ ps (isStaticPattern_forall pat hstat) hm
    obtain ⟨s, hs, hcs⟩ :=
      mem_splitSlashAux_of_mem '?' path.data [] (Or.inl hq) (by decide)
    have hs2 : s ∈ splitSlash pat := heq ▸ hs
    rcases mem_data_of_mem_splitSlashAux '?' pat.data [] s hs2 hcs with h | h
    · exact hnq h
    · cases h

/-! ### Wildcard coverage (for the missing-stack safety claim) -/

theorem patMatch_wildcard (path : String) (h : path.data.head? = some '/') :
    (patMatch "/*" path).isSome := by
  cases hd : path.data with
  | nil => rw [hd] at h; cases h
  | cons c rest =>
    rw [hd] at h
    have hc : c = '/' := by simpa using h
    subst hc
    have h2 : splitSlash path = "" :: splitSlashAux [] rest := by
      show splitSlashAux [] path.data = _
      rw [hd]
      simp [splitSlashAux]
    rw [patMatch, h2]
    have h1 : splitSlash "/*" = ["", "*"] := rfl
    rw [h1]
    simp [segMatch, isParamSeg]

theorem built_covered (w : World) (hw : Built w) : StackCovered w := by
  induction hw with
  | init => exact ⟨0, by decide⟩
  | useStep t m w2 hw2 hv ih => obtain ⟨sid, hsid⟩ := ih; exact ⟨sid, hsid⟩
  | addStep t method fullPath h w2 hw2 ih => obtain ⟨sid, hsid⟩ := ih; exact ⟨sid, hsid⟩
  | mountStep t p w2 hw2 ih =>
    obtain ⟨sid, hsid⟩ := ih
    refine ⟨sid, ?_⟩
    show ("GET", "/*", sid) ∈ w2.stackTable ++ _
    exact List.mem_append_left _ hsid

theorem resolvedStack_isSome (w : World) (hc : StackCovered w) (req : Request) :
    ∃ st, resolvedStack w req = some st := by
  cases hr : routeHit w req with
  | some x => exact ⟨x.1.stack, by simp [resolvedStack, hr]⟩
  | none =>
    obtain ⟨sid, hsid⟩ := hc
    have hmatch : (patMatch "/*" (lookupPath req)).isSome :=
      patMatch_wildcard _ (normalizePath_head _)
    have hsome := findIn_isSome_of_mem "GET" (lookupPath req) "/*" sid
      w.stackTable none hsid hmatch
    obtain ⟨x, hx⟩ := Option.isSome_iff_exists.mp hsome
    refine ⟨w.cells.getD x.2.1 [], ?_⟩
    simp [resolvedStack, hr, stackHit, hx]

/-! ### Locals accumulation through factory-built chains -/

theorem mergeLocals_of_right_none (a b : Locals) (k : String) (h : b k = none) :
    mergeLocals a b k = a k := by
  simp [mergeLocals, h]

theorem mergeLocals_of_left_some (a b : Locals) (k : String) (v : String)
    (h : a k = some v) : ∃ u, mergeLocals a b k = some u := by
  cases hb : b k with
  | none => exact ⟨v, by simp [mergeLocals, hb, h]⟩
  | some u => exact ⟨u, by simp [mergeLocals, hb]⟩

theorem accLocals_mono (ctx : Ctx) : ∀ (ps : List (BeforeFn × Option AfterFn))
    (out : Locals) (k v : String), out k = some v →
    ∃ u, accLocals ctx ps out k = some u := by
  intro ps
  induction ps with
  | nil => intro out k v h; exact ⟨v, h⟩
  | cons p ps ih =>
    intro out k v h
    obtain ⟨u, hu⟩ :=
      mergeLocals_of_left_some out (p.1 { ctx with locals := out }).1 k v h
    exact ih _ k u hu

theorem accLocals_untouched (ctx : Ctx) (k : String) :
    ∀ (ps : List (BeforeFn × Option AfterFn)) (out : Locals) (v : String),
      out k = some v → Untouched ctx k ps out → accLocals ctx ps out k = some v := by
  intro ps
  induction ps with
  | nil => intro out v h _; exact h
  | cons p ps ih =>
    intro out v h hu
    obtain ⟨h1, h2⟩ := hu
    have hmerge := mergeLocals_of_right_none out (p.1 { ctx with locals := out }).1 k h1
    exact ih _ v (hmerge ▸ h) h2

theorem runStack_mkStack_split (ctx : Ctx) (term : Locals → MwResult) :
    ∀ (pre suf : List (BeforeFn × Option AfterFn)) (out : Locals),
      (runStack ctx term (mkStack (pre ++ suf)) out).1 =
        (runStack ctx term (mkStack suf) (accLocals ctx pre out)).1 := by
  intro pre
  induction pre with
  | nil => intro suf out; rfl
  | cons p ps ih =>
    intro suf out
    show (createMiddleware p.1 p.2 { ctx with locals := out }
      (runStack ctx term (mkStack (ps ++ suf)))).1 = _
    simp only [createMiddleware]
    exact ih suf (mergeLocals out (p.1 { ctx with locals := out }).1)

/-! ### Claim theorems -/

/-- Claim C1: the resolved middleware stack executes in strict registration
order with a zero-based cursor (`use` appends at the end of the list and
the runner walks it front to back), and a middleware that returns a
response without invoking its continuation prevents every later middleware
and the handler from running: whatever the suffix of the stack and whatever
handler the dispatch would have used, the dispatch result is exactly that
middleware's own response and trace. -/
theorem middleware_order_and_short_circuit :
    (∀ (t : Toad) (m : Mw) (w : World), t.stackId < w.cells.length →
      (Toad.use t m w).cells.getD t.stackId [] = w.cells.getD t.stackId [] ++ [m]) ∧
    (∀ (w : World) (req : Request) (pre post : List Mw) (m : Mw) (r : Response)
      (tr : Trace),
      resolvedStack w req = some (pre ++ m :: post) →
      (∀ x ∈ pre, ∃ f, Transparent x f) →
      Blocking m r tr →
      dispatch w req = Except.ok (r, tr)) := by
  constructor
  · exact fun t m w hv => use_cells_self t m w hv
  · intro w req pre post m r tr hres hpre hblock
    rw [dispatch_eq_run w req _ hres]
    obtain ⟨out2, h2⟩ := runStack_transparent_prefix (initialCtx w req)
      (terminalOf w req) pre (m :: post) hpre Locals.empty
    rw [h2, runStack_cons, hblock]

/-- Claim C1 witness: with stack `[pass, halt, pass]` on a fresh router, the
dispatch result is the halting middleware's own response. -/
theorem middleware_order_and_short_circuit_witness :
    dispatch
      (Toad.use ⟨"", 0⟩ mwPass
        (Toad.use ⟨"", 0⟩ (mwHalt (Response.json "halt" 403) ["halt"])
          (Toad.use ⟨"", 0⟩ mwPass createToad.2)))
      ⟨"GET", "http://example.com/a"⟩ =
      Except.ok (Response.json "halt" 403, ["halt"]) := by
  refine middleware_order_and_short_circuit.2 _ _ [mwPass] [mwPass]
    (mwHalt (Response.json "halt" 403) ["halt"]) _ _ rfl ?_ ?_
  · intro x hx
    rw [List.mem_singleton] at hx
    subst hx
    exact ⟨fun ctx => ctx.locals, fun ctx k => rfl⟩
  · intro ctx k
    rfl

/-- Claim C2: a verb registration snapshots the router's middleware list at
registration time: after any sequence of later `use` calls on the same
router, a request that matches the registered route (same method, same
normalized path, a purely static pattern) resolves to exactly the snapshot
taken when the route was registered — none of the later middleware is in
the resolved stack. -/
theorem route_snapshot (w : World) (t : Toad) (method p : String) (h : HandlerFn)
    (ms : List Mw) (req : Request)
    (hstat : isStaticPattern (normalizePath (t.basePath ++ p)) = true)
    (hm : req.method = method)
    (hp : lookupPath req = normalizePath (t.basePath ++ p)) :
    resolvedStack (applyUses t ms (Toad.addRoute t method (t.basePath ++ p) h w)) req
      = some (w.cells.getD t.stackId []) := by
  have htbl :
      (applyUses t ms (Toad.addRoute t method (t.basePath ++ p) h w)).routeTable
      = w.routeTable ++ [(method, normalizePath (t.basePath ++ p),
          ⟨t.basePath ++ p, w.cells.getD t.stackId [], h⟩)] := by
    rw [applyUses_routeTable]
    rfl
  have hhit :
      routeHit (applyUses t ms (Toad.addRoute t method (t.basePath ++ p) h w)) req
      = some (⟨t.basePath ++ p, w.cells.getD t.stackId [], h⟩, []) := by
    unfold routeHit
    rw [htbl, hm, hp]
    rw [findIn_last_static method (normalizePath (t.basePath ++ p)) _ w.routeTable hstat]
    rfl
  unfold resolvedStack
  rw [hhit]

/-- Claim C2 witness: `use(pass)`, then `get("/x")`, then `use(halt)`: a
GET /x resolves to the snapshot `[pass]`, never to the later middleware. -/
theorem route_snapshot_witness :
    resolvedStack
      (applyUses ⟨"", 0⟩ [mwHalt notFound []]
        (Toad.addRoute ⟨"", 0⟩ "GET" ("" ++ "/x") okHandler
          (Toad.use ⟨"", 0⟩ mwPass createToad.2)))
      ⟨"GET", "http://example.com/x"⟩ = some [mwPass] :=
  route_snapshot (Toad.use ⟨"", 0⟩ mwPass createToad.2) ⟨"", 0⟩ "GET" "/x" okHandler
    [mwHalt notFound []] ⟨"GET", "http://example.com/x"⟩ (by decide) rfl (by decide)

/-- Claim C3: spellings of a path that differ only in duplicated slashes,
redundant leading slashes or a trailing slash are exactly the strings with
equal non-empty slash-separated segments; for such spellings the whole
route lookup (hence the handler and its matched-pattern string) and the
fallback stack lookup coincide. Moreover the normalizer guarantees a
leading slash, no double slash, no trailing slash (except for the root
path), and maps slash-only or empty input to "/". -/
theorem normalization_equivalence :
    (∀ s1 s2 : String, nonEmptySegs s1 = nonEmptySegs s2 →
      normalizePath s1 = normalizePath s2) ∧
    (∀ (w : World) (m u1 u2 : String),
      nonEmptySegs (rawPath u1) = nonEmptySegs (rawPath u2) →
      routeHit w ⟨m, u1⟩ = routeHit w ⟨m, u2⟩ ∧
        stackHit w ⟨m, u1⟩ = stackHit w ⟨m, u2⟩) ∧
    (∀ s : String, (normalizePath s).data.head? = some '/') ∧
    (∀ s : String, NoTwoSlashes (normalizePath s).data) ∧
    (∀ s : String, normalizePath s = "/" ∨ (normalizePath s).data.getLast? ≠ some '/') ∧
    (∀ s : String, nonEmptySegs s = [] → normalizePath s = "/") := by
  refine ⟨normalizePath_congr, ?_, normalizePath_head, normalizePath_noTwoSlashes,
    normalizePath_trailing, ?_⟩
  · intro w m u1 u2 h
    have hlp : lookupPath ⟨m, u1⟩ = lookupPath ⟨m, u2⟩ :=
      normalizePath_congr _ _ h
    constructor
    · simp only [routeHit, hlp]
    · simp only [stackHit, hlp]
  · intro s h
    have h2 : nonEmptySegs s = nonEmptySegs "" := by rw [h]; rfl
    exact (normalizePath_congr s "" h2).trans rfl

/-- Claim C3 witness: with a route at "/foo/bar", the spellings
"/foo//bar/" and "/foo/bar" of the request path produce the same route
lookup result. -/
theorem normalization_equivalence_witness :
    routeHit (Toad.addRoute ⟨"", 0⟩ "GET" "/foo/bar" okHandler createToad.2)
        ⟨"GET", "http://example.com/foo//bar/"⟩ =
      routeHit (Toad.addRoute ⟨"", 0⟩ "GET" "/foo/bar" okHandler createToad.2)
        ⟨"GET", "http://example.com/foo/bar"⟩ :=
  (normalization_equivalence.2.1 _ "GET" "http://example.com/foo//bar/"
    "http://example.com/foo/bar" (by decide)).1

/-- Claim C4: the fallback stack lookup ignores the request's method
entirely, and when the route table misses but the stack table hits,
dispatch runs that stack's middleware over a context with no matched route
and terminates in the not-found response — no handler is involved in the
terminal — whose status is 404 and whose body is the JSON encoding of
a "Not found" message. -/
theorem fallback_not_found :
    (∀ (w : World) (u m1 m2 : String),
      stackHit w ⟨m1, u⟩ = stackHit w ⟨m2, u⟩) ∧
    (∀ (w : World) (req : Request) (sid : Nat),
      routeHit w req = none → stackHit w req = some sid →
      dispatch w req = Except.ok
        (runStack ⟨req, none, Locals.empty⟩ notFoundTerminal
          (w.cells.getD sid []) Locals.empty)) ∧
    notFound.status = 404 ∧ notFound.body = "\x7b\"message\":\"Not found\"\x7d" := by
  refine ⟨?_, ?_, rfl, rfl⟩
  · intro w u m1 m2
    rfl
  · intro w req sid hr hs
    have hres : resolvedStack w req = some (w.cells.getD sid []) := by
      simp [resolvedStack, hr, hs]
    rw [dispatch_eq_run w req _ hres]
    have hctx : initialCtx w req = ⟨req, none, Locals.empty⟩ := by
      simp [initialCtx, hr]
    have hterm : terminalOf w req = notFoundTerminal := by
      funext out
      simp [terminalOf, hr]
    rw [hctx, hterm]

/-- Claim C4 witness: a POST to an unregistered path on a fresh router
dispatches to the 404 response. -/
theorem fallback_not_found_witness :
    dispatch createToad.2 ⟨"POST", "http://example.com/zzz"⟩ =
      Except.ok (notFound, []) :=
  fallback_not_found.2.1 createToad.2 ⟨"POST", "http://example.com/zzz"⟩ 0 rfl rfl

theorem getD_concat_length (l : List (List Mw)) (x : List Mw) :
    (l ++ [x]).getD l.length [] = x := by
  simp [List.getD_eq_getElem?_getD, List.getElem?_concat_length]

/-- Claim C5: mounting a sub-router gives it the concatenated base path and
an independent *copy* of the parent's middleware list taken at mount time
(a fresh cell): later `use` on the parent leaves the sub-router's list as
the mount-time copy and vice versa, while the route table (and stack
table) stay shared — mounting adds no route, `handle` behaves identically
on every router of the tree, and a verb registration on the sub-router
appends to the very table the parent dispatches against, keyed under the
combined base path. -/
theorem subrouter_isolation (w : World) (t : Toad) (p : String) (m : Mw)
    (hv : t.stackId < w.cells.length) :
    (Toad.mount t p w).1.basePath = t.basePath ++ p ∧
    (Toad.mount t p w).2.cells.getD (Toad.mount t p w).1.stackId [] =
      w.cells.getD t.stackId [] ∧
    (Toad.mount t p w).1.stackId ≠ t.stackId ∧
    (Toad.use t m (Toad.mount t p w).2).cells.getD (Toad.mount t p w).1.stackId [] =
      w.cells.getD t.stackId [] ∧
    (Toad.use (Toad.mount t p w).1 m (Toad.mount t p w).2).cells.getD t.stackId [] =
      (Toad.mount t p w).2.cells.getD t.stackId [] ∧
    (Toad.mount t p w).2.routeTable = w.routeTable ∧
    (∀ req, Toad.handle (Toad.mount t p w).1 (Toad.mount t p w).2 req =
      Toad.handle t (Toad.mount t p w).2 req) ∧
    (∀ (q : String) (hq : HandlerFn),
      (Toad.get (Toad.mount t p w).1 q hq (Toad.mount t p w).2).routeTable =
        (Toad.mount t p w).2.routeTable ++
          [("GET", normalizePath ((t.basePath ++ p) ++ q),
            ⟨(t.basePath ++ p) ++ q, w.cells.getD t.stackId [], hq⟩)]) := by
  have hcopy : (Toad.mount t p w).2.cells.getD (Toad.mount t p w).1.stackId [] =
      w.cells.getD t.stackId [] :=
    getD_concat_length w.cells (w.cells.getD t.stackId [])
  have hne : t.stackId ≠ (Toad.mount t p w).1.stackId := Nat.ne_of_lt hv
  refine ⟨rfl, hcopy, fun hx => hne hx.symm, ?_, ?_, rfl, fun _ => rfl, ?_⟩
  · rw [use_cells_ne t m (Toad.mount t p w).2 (Toad.mount t p w).1.stackId hne]
    exact hcopy
  · exact use_cells_ne (Toad.mount t p w).1 m (Toad.mount t p w).2 t.stackId
      (fun hx => hne hx.symm)
  · intro q hq
    rw [← hcopy]
    rfl

/-- Claim C5 witness: after mounting "/admin" on a router whose stack is
`[pass]`, a later `use` on the parent leaves the sub-router's mount-time
copy `[pass]` untouched. -/
theorem subrouter_isolation_witness :
    (Toad.use ⟨"", 0⟩ (mwHalt notFound [])
        (Toad.mount ⟨"", 0⟩ "/admin" (Toad.use ⟨"", 0⟩ mwPass createToad.2)).2).cells.getD
      (Toad.mount ⟨"", 0⟩ "/admin" (Toad.use ⟨"", 0⟩ mwPass createToad.2)).1.stackId []
      = [mwPass] :=
  (subrouter_isolation (Toad.use ⟨"", 0⟩ mwPass createToad.2) ⟨"", 0⟩ "/admin"
    (mwHalt notFound []) (by decide)).2.2.2.1

/-- Claim C6: the stack entries registered at a router's base path hold a
live reference to its middleware list, not a snapshot: after any sequence
of later `use` calls, a request that matches no route but falls back to
that router's stack entry resolves to the router's *current* middleware
list, later-added middleware included. -/
theorem live_stack_fallback (w : World) (t : Toad) (ms : List Mw) (req : Request)
    (hv : t.stackId < w.cells.length)
    (hr : routeHit (applyUses t ms w) req = none)
    (hs : stackHit w req = some t.stackId) :
    resolvedStack (applyUses t ms w) req = some (w.cells.getD t.stackId [] ++ ms) := by
  have hs2 : stackHit (applyUses t ms w) req = some t.stackId := by
    rw [stackHit_applyUses]
    exact hs
  have hcell := applyUses_cells_self t ms w hv
  simp [resolvedStack, hr, hs2]
  simpa [List.getD_eq_getElem?_getD] using hcell

/-- Claim C6 witness: middleware added by `use` after construction shows up
in the fallback stack of a request that matches no route. -/
theorem live_stack_fallback_witness :
    resolvedStack (applyUses ⟨"", 0⟩ [mwPass] createToad.2)
      ⟨"GET", "http://example.com/zzz"⟩ = some [mwPass] :=
  live_stack_fallback createToad.2 ⟨"", 0⟩ [mwPass]
    ⟨"GET", "http://example.com/zzz"⟩ (by decide) rfl rfl

/-- Claim C7: a middleware built by `createMiddleware(before, after?)` runs
`before` first, shallow-merges its returned locals into the context's
locals with `before`'s keys winning on collision, invokes the continuation
with the merged locals, then (when supplied) runs `after` on the
merged-locals context and the continuation's response with its return
value discarded: in every case the middleware's response is exactly the
continuation's response, and the trace order is before, continuation,
after. -/
theorem createMiddleware_semantics (b : BeforeFn) (a : AfterFn) (ctx : Ctx)
    (k : Locals → MwResult) :
    ((createMiddleware b (some a) ctx k).1 =
        (k (mergeLocals ctx.locals (b ctx).1)).1) ∧
    ((createMiddleware b (some a) ctx k).2 =
        (b ctx).2 ++ ((k (mergeLocals ctx.locals (b ctx).1)).2 ++
          a { ctx with locals := mergeLocals ctx.locals (b ctx).1 }
            (k (mergeLocals ctx.locals (b ctx).1)).1)) ∧
    ((createMiddleware b none ctx k).1 = (k (mergeLocals ctx.locals (b ctx).1)).1) ∧
    ((createMiddleware b none ctx k).2 =
        (b ctx).2 ++ ((k (mergeLocals ctx.locals (b ctx).1)).2 ++ [])) ∧
    (∀ key v, (b ctx).1 key = some v →
        mergeLocals ctx.locals (b ctx).1 key = some v) ∧
    (∀ key, (b ctx).1 key = none →
        mergeLocals ctx.locals (b ctx).1 key = ctx.locals key) := by
  refine ⟨rfl, rfl, rfl, rfl, ?_, ?_⟩
  · intro key v h
    simp [mergeLocals, h]
  · intro key h
    simp [mergeLocals, h]

/-- Claim C7 witness: on concrete before/after/continuation functions the
factory middleware returns the continuation's response and logs
before, continuation, after — in that order. -/
theorem createMiddleware_semantics_witness :
    (createMiddleware
        (fun _ => (fun key => if key = "x" then some "1" else none, ["before"]))
        (some (fun _ _ => ["after"])) ⟨⟨"GET", "u"⟩, none, Locals.empty⟩
        (fun _ => (Response.json "k" 201, ["next"]))).2 =
      ["before", "next", "after"] :=
  (createMiddleware_semantics
    (fun _ => (fun key => if key = "x" then some "1" else none, ["before"]))
    (fun _ _ => ["after"]) ⟨⟨"GET", "u"⟩, none, Locals.empty⟩
    (fun _ => (Response.json "k" 201, ["next"]))).2.1

/-- Claim C8: locals accumulate monotonically along a factory-built chain:
the runner hands the middleware at position `i` (and finally the handler)
the locals accumulated over the first `i` steps; a key present in the
incoming locals stays present at every later step, and keeps its exact
value as long as no intervening `before` output binds that key. -/
theorem locals_accumulate :
    (∀ (ctx : Ctx) (term : Locals → MwResult)
      (ps pre suf : List (BeforeFn × Option AfterFn)) (out : Locals),
      ps = pre ++ suf →
      (runStack ctx term (mkStack ps) out).1 =
        (runStack ctx term (mkStack suf) (accLocals ctx pre out)).1) ∧
    (∀ (ctx : Ctx) (ps : List (BeforeFn × Option AfterFn)) (out : Locals)
      (k v : String), out k = some v → ∃ u, accLocals ctx ps out k = some u) ∧
    (∀ (ctx : Ctx) (k : String) (ps : List (BeforeFn × Option AfterFn))
      (out : Locals) (v : String), out k = some v → Untouched ctx k ps out →
      accLocals ctx ps out k = some v) := by
  refine ⟨?_, ?_, ?_⟩
  · intro ctx term ps pre suf out hsplit
    subst hsplit
    exact runStack_mkStack_split ctx term pre suf out
  · intro ctx ps out k v h
    exact accLocals_mono ctx ps out k v h
  · intro ctx k ps out v h hu
    exact accLocals_untouched ctx k ps out v h hu

/-- Claim C8 witness: a seeded key survives two factory middleware whose
before functions bind other keys, with its value intact. -/
theorem locals_accumulate_witness :
    accLocals ⟨⟨"GET", "u"⟩, none, Locals.empty⟩
      [((fun _ => (fun key => if key = "a" then some "1" else none, [])), none),
       ((fun _ => (fun key => if key = "b" then some "2" else none, [])), none)]
      (fun key => if key = "seed" then some "s0" else none) "seed" = some "s0" :=
  locals_accumulate.2.2 ⟨⟨"GET", "u"⟩, none, Locals.empty⟩ "seed"
    [((fun _ => (fun key => if key = "a" then some "1" else none, [])), none),
     ((fun _ => (fun key => if key = "b" then some "2" else none, [])), none)]
    (fun key => if key = "seed" then some "s0" else none) "s0" rfl
    ⟨rfl, rfl, trivial⟩

/-- Claim C9: on every world reachable through the public API, the
"No stack handler found" branch of dispatch is unreachable: the catch-all
stack entries registered at construction guarantee every normalized path a
stack, so `handle` always returns a response. -/
theorem missing_stack_unreachable (w : World) (hw : Built w) (req : Request) :
    ∀ t : Toad, ∃ res, Toad.handle t w req = Except.ok res := by
  intro t
  obtain ⟨st, hst⟩ := resolvedStack_isSome w (built_covered w hw) req
  exact ⟨_, dispatch_eq_run w req st hst⟩

/-- Claim C9 witness: a fresh router serves a request to the bare host URL
without hitting the error branch. -/
theorem missing_stack_unreachable_witness :
    ∃ res, Toad.handle ⟨"", 0⟩ createToad.2 ⟨"PATCH", "http://example.com"⟩ =
      Except.ok res :=
  missing_stack_unreachable createToad.2 Built.init
    ⟨"PATCH", "http://example.com"⟩ ⟨"", 0⟩

/-- Claim C10 counterexample: a route registered at the query-less path
"/:foo" IS resolved by a request whose URL carries a "?query" suffix — the
lookup keeps the query text in the path and the parameter segment captures
it — refuting the claim's blanket "does not resolve to that route". -/
theorem query_resolves_param_route :
    (routeHit (Toad.addRoute ⟨"", 0⟩ "GET" "/:foo" okHandler createToad.2)
        ⟨"GET", "http://example.com/x?q=1"⟩).map
      (fun x => (x.1.matchingRoute, x.2)) =
      some ("/:foo", [("foo", "x?q=1")]) := rfl

/-- Claim C10 (amended): `handle` derives the lookup path by splitting the
URL on "/" and dropping the first three components — a URL with no path
component dispatches as "/" — and the query string is not stripped: a "?"
in the raw path survives normalization into the lookup path, so a request
carrying a query suffix never resolves to a route whose registered pattern
is purely static (a parameter or wildcard segment may still capture the
query text, as the counterexample shows). -/
theorem query_in_lookup_path :
    (∀ m u : String, (splitSlash u).length ≤ 3 → lookupPath ⟨m, u⟩ = "/") ∧
    (∀ req : Request, '?' ∈ (rawPath req.url).data → '?' ∈ (lookupPath req).data) ∧
    (∀ pattern path : String, isStaticPattern pattern = true → '?' ∉ pattern.data →
      '?' ∈ path.data → patMatch pattern path = none) := by
  refine ⟨?_, ?_, ?_⟩
  · intro m u h
    show normalizePath (joinSlash ((splitSlash u).drop 3)) = "/"
    rw [List.drop_eq_nil_of_le h]
    rfl
  · intro req h
    exact normChars_mem '?' (by decide) _ h
  · intro pattern path hstat hnq hq
    exact patMatch_static_query pattern path hstat hq hnq

/-- Claim C10 witness: a bare host URL is looked up as "/", and a static
route pattern does not match its own path with a query suffix. -/
theorem query_in_lookup_path_witness :
    lookupPath ⟨"GET", "http://example.com"⟩ = "/" ∧
    patMatch "/foo" "/foo?q=1" = none :=
  ⟨query_in_lookup_path.1 "GET" "http://example.com" (by decide),
   query_in_lookup_path.2.2 "/foo" "/foo?q=1" (by decide) (by decide) (by decide)⟩
